import Mathlib

/-
  Verification development for the polynomial-optics image postprocessing
  example (src/polynomialOpticsExample_modified.cpp).

  The renderer's numeric kernel is embedded shallowly over ℚ (exact
  rationals standing in for the C floats), and the truncated-polynomial
  algebra consumed from the TruncPolySystem collaborator is modelled as
  explicit term lists.  Each definition mirrors one source construct; the
  theorems at the end settle the frozen claims about the pipeline.
-/

/-! ## Lambertian falloff (main, lines 211-215)

The C code computes `float lambert = sqrt(1 - out[2]);` followed by the
NaN self-inequality check `if (lambert != lambert) lambert = 0;`.
`sqrt` of a negative radicand yields NaN, which the check maps to 0; a
non-negative radicand yields an ordinary square root which the check
leaves untouched.  The angle term `out[2]` is a polynomial value, hence
modelled as a rational. -/

noncomputable def lambert (t : ℚ) : ℝ :=
  if (1 - t : ℚ) < 0 then 0 else Real.sqrt ((1 : ℝ) - (t : ℝ))

/-! ## Gamut correction (main, lines 227-239)

Per pixel: `max_value` is the maximum of the three channels, then each
channel is raised to `max(channel, 0.02f * max_value)`.  The channel
updates read only the channel being written and the precomputed
`max_value`, so the in-place sequence equals a simultaneous update. -/

structure Pixel where
  r : ℚ
  g : ℚ
  b : ℚ
deriving DecidableEq

def maxChannel (p : Pixel) : ℚ := max p.r (max p.g p.b)

def gamutCorrect (p : Pixel) : Pixel :=
  ⟨max p.r (0.02 * maxChannel p),
   max p.g (0.02 * maxChannel p),
   max p.b (0.02 * maxChannel p)⟩

/-! ## Importance sampling (main, lines 181-186)

`int num_samples = max(1,(int)(L_in * sample_mul));` uses the C
float-to-int cast, which truncates toward zero; `cTrunc` is that cast.
`float sample_weight = L_in / num_samples;`. -/

def cTrunc (q : ℚ) : ℤ := if q < 0 then ⌈q⌉ else ⌊q⌋

def num_samples (L m : ℚ) : ℤ := max 1 (cTrunc (L * m))

def sample_weight (L m : ℚ) : ℚ := L / ((num_samples L m : ℤ) : ℚ)

/-! ## Row baking input (main, lines 163-169)

`const float y_sensor = ((j - height/2)/(float)width) * sensor_width;`
(`height/2` is C integer division of the input image height) and
`const float y_world = y_sensor / magnification;`.  `width` and `height`
are the dimensions of the input image. -/

def y_sensor (j height width : ℕ) (sensor_width : ℚ) : ℚ :=
  (((j : ℤ) - (height / 2 : ℕ) : ℤ) : ℚ) / (width : ℚ) * sensor_width

def y_world (j height width : ℕ) (sensor_width magnification : ℚ) : ℚ :=
  y_sensor j height width sensor_width / magnification

/-! ## Aperture rejection sampling (main, lines 191-196)

Candidates come from `(rand() / (float)RAND_MAX - 0.5) * 2 * r_pupil`
with `rand()/RAND_MAX` in `[0,1]`; the do-while loop repeats until
`x_ap*x_ap + y_ap*y_ap > r_pupil*r_pupil` fails, i.e. until the point is
inside the closed disk.  The loop is modelled fuel-indexed over an
arbitrary candidate stream. -/

def apCandidate (u v r : ℚ) : ℚ × ℚ :=
  ((u - 0.5) * 2 * r, (v - 0.5) * 2 * r)

def inDisk (p : ℚ × ℚ) (r : ℚ) : Prop :=
  p.1 * p.1 + p.2 * p.2 ≤ r * r

instance (p : ℚ × ℚ) (r : ℚ) : Decidable (inDisk p r) :=
  inferInstanceAs (Decidable (p.1 * p.1 + p.2 * p.2 ≤ r * r))

def inSquare (p : ℚ × ℚ) (r : ℚ) : Prop :=
  -r ≤ p.1 ∧ p.1 ≤ r ∧ -r ≤ p.2 ∧ p.2 ≤ r

def rejectionLoopAux (cand : ℕ → ℚ × ℚ) (r : ℚ) : ℕ → ℕ → Option (ℚ × ℚ)
  | _, 0 => none
  | i, fuel + 1 =>
    if inDisk (cand i) r then some (cand i) else rejectionLoopAux cand r (i + 1) fuel

def rejectionLoop (cand : ℕ → ℚ × ℚ) (r : ℚ) (fuel : ℕ) : Option (ℚ × ℚ) :=
  rejectionLoopAux cand r 0 fuel

def loopTerminates (cand : ℕ → ℚ × ℚ) (r : ℚ) : Prop :=
  ∃ fuel p, rejectionLoop cand r fuel = some p

/-! ## Truncated polynomial algebra

Modelled from the spec: the TruncPolySystem collaborator is out of scope
of src/; the spec describes "a truncated multivariate polynomial map"
supporting composition, baking, "truncation to a lower degree, linear
interpolation between two transforms of matching shape parameterized by
a scalar control value, removal of one output equation, and evaluation".
A polynomial is a list of terms, each a rational coefficient with one
exponent per input variable; a system is a list of such polynomials, one
per output equation. -/

structure PolyTerm where
  coeff : ℚ
  exps : List ℕ
deriving DecidableEq

abbrev TPoly := List PolyTerm

def PolyTerm.degree (t : PolyTerm) : ℕ := t.exps.sum

def TPoly.add (p q : TPoly) : TPoly := p ++ q

def PolyTerm.mulT (s t : PolyTerm) : PolyTerm :=
  ⟨s.coeff * t.coeff, List.zipWith (· + ·) s.exps t.exps⟩

def TPoly.mul (p q : TPoly) : TPoly :=
  (p.map (fun s => q.map (fun t => s.mulT t))).flatten

/-- Modelled from the spec: "truncation to a lower degree" discards the
terms whose total degree exceeds the bound (the `%=` operator of the
collaborator). -/
def TPoly.trunc (d : ℕ) (p : TPoly) : TPoly :=
  p.filter (fun t => t.degree ≤ d)

def PolyTerm.evalT (t : PolyTerm) (x : List ℚ) : ℚ :=
  t.coeff * (List.zipWith (fun xi e => xi ^ e) x t.exps).prod

def TPoly.eval (p : TPoly) (x : List ℚ) : ℚ :=
  (p.map (fun t => t.evalT x)).sum

/-! ## Spectral rearrangement (main, lines 140-144)

`system_spectral[2] = (system_spectral[2] * system_spectral[2] +
system_spectral[3] * system_spectral[3]); system_spectral[2] %= 2;`
followed by `drop_equation(3)`. -/

def rearrangeSpectral (s : List TPoly) : List TPoly :=
  let s1 := s.set 2 (TPoly.add (TPoly.mul (s.getD 2 []) (s.getD 2 []))
                              (TPoly.mul (s.getD 3 []) (s.getD 3 [])))
  let s2 := s1.set 2 (TPoly.trunc 2 (s1.getD 2 []))
  s2.eraseIdx 3

/-! ## Spectral interpolation (main, line 138)

`system_spectral_center.lerp_with(system_spectral_right, 550, 600)`.
Modelled from the spec: the collaborator's `lerp_with` "linearly
interpolate[s] two same-shaped transforms by a control value between two
reference points", introducing the control value as one additional input
variable (index `n`): each output equation becomes
`a + ((X_n - x0)/(x1 - x0)) * (b - a)`, so plugging `x0` into the new
variable reproduces `a` and plugging `x1` reproduces `b`. -/

def TPoly.scale (c : ℚ) (p : TPoly) : TPoly :=
  p.map (fun t => ⟨c * t.coeff, t.exps⟩)

def TPoly.extend (p : TPoly) : TPoly :=
  p.map (fun t => ⟨t.coeff, t.exps ++ [0]⟩)

def lerpCtrl (x0 x1 : ℚ) (n : ℕ) : TPoly :=
  [⟨1 / (x1 - x0), List.replicate n 0 ++ [1]⟩,
   ⟨-x0 / (x1 - x0), List.replicate (n + 1) 0⟩]

def lerpWith (a b : List TPoly) (x0 x1 : ℚ) (n : ℕ) : List TPoly :=
  List.zipWith
    (fun p q =>
      TPoly.add (TPoly.extend p)
        (TPoly.mul (lerpCtrl x0 x1 n)
          (TPoly.add (TPoly.extend q) (TPoly.scale (-1) (TPoly.extend p)))))
    a b

/-! ## Output image accumulation (main, lines 116 and 217-219)

`CImg<float> img_out(sensor_xres, sensor_yres, 1, 3, 0);` allocates the
output buffer filled with 0, and each splat is
`img_out.set_linear_atXY(value, out[0], out[1], 0, c, true);`.
Modelled from the spec: the CImg image collaborator's "write side
supports accumulation (add-and-store) at sub-pixel (bilinear)
coordinates" — a deposit adds `value` times the bilinear weight of the
four integer cells surrounding the fractional coordinate, on one colour
channel. -/

abbrev Image : Type := ℤ × ℤ × Fin 3 → ℚ

def zeroImage : Image := fun _ => 0

structure Splat where
  value : ℚ
  fx : ℚ
  fy : ℚ
  c : Fin 3

def binWeight (fx : ℚ) (x : ℤ) : ℚ :=
  if x = ⌊fx⌋ then 1 - (fx - ⌊fx⌋) else if x = ⌊fx⌋ + 1 then fx - ⌊fx⌋ else 0

def splatWeight (s : Splat) (q : ℤ × ℤ × Fin 3) : ℚ :=
  if q.2.2 = s.c then binWeight s.fx q.1 * binWeight s.fy q.2.1 else 0

def deposit (img : Image) (s : Splat) : Image :=
  fun q => img q + s.value * splatWeight s q

def renderAccum (splats : List Splat) : Image :=
  splats.foldl deposit zeroImage

/-! ## Helper lemmas -/

lemma rejectionLoopAux_inDisk (cand : ℕ → ℚ × ℚ) (r : ℚ) :
    ∀ fuel i p, rejectionLoopAux cand r i fuel = some p → inDisk p r := by
  intro fuel
  induction fuel with
  | zero => intro i p h; simp [rejectionLoopAux] at h
  | succ n ih =>
    intro i p h
    by_cases hd : inDisk (cand i) r
    · simp only [rejectionLoopAux, if_pos hd, Option.some.injEq] at h
      rwa [← h]
    · simp only [rejectionLoopAux, if_neg hd] at h
      exact ih (i + 1) p h

lemma rejectionLoopAux_isSome (cand : ℕ → ℚ × ℚ) (r : ℚ) :
    ∀ fuel i, (∃ k, k < fuel ∧ inDisk (cand (i + k)) r) →
      ∃ p, rejectionLoopAux cand r i fuel = some p := by
  intro fuel
  induction fuel with
  | zero =>
    rintro i ⟨k, hk, _⟩
    exact absurd hk (Nat.not_lt_zero k)
  | succ m ih =>
    rintro i ⟨k, hk, hd⟩
    by_cases h0 : inDisk (cand i) r
    · exact ⟨cand i, by simp [rejectionLoopAux, if_pos h0]⟩
    · have hk0 : k ≠ 0 := by
        rintro rfl
        exact h0 (by simpa using hd)
      obtain ⟨j, rfl⟩ : ∃ j, k = j + 1 := ⟨k - 1, by omega⟩
      have hj : ∃ j2, j2 < m ∧ inDisk (cand ((i + 1) + j2)) r :=
        ⟨j, by omega, by rwa [show (i + 1) + j = i + (j + 1) by omega]⟩
      obtain ⟨p, hp⟩ := ih (i + 1) hj
      exact ⟨p, by simp [rejectionLoopAux, if_neg h0, hp]⟩

lemma foldl_deposit_apply (splats : List Splat) :
    ∀ (img : Image) (q : ℤ × ℤ × Fin 3),
      (splats.foldl deposit img) q
        = img q + (splats.map (fun s => s.value * splatWeight s q)).sum := by
  induction splats with
  | nil => intro img q; simp
  | cons s rest ih =>
    intro img q
    simp only [List.foldl_cons, List.map_cons, List.sum_cons]
    rw [ih]
    simp only [deposit]
    ring

/-! ## Claim theorems -/

/-- C1 (counterexample): the claim that the clamped Lambertian value lies in
[0,1] for all evaluated inputs, including negative angle terms, is false:
at angle term −3 the code computes sqrt(1 − (−3)) = 2, a real number the
NaN self-inequality check does not clamp. -/
theorem lambert_negative_angle_exceeds_one : 1 < lambert (-3) := by
  have hbr : ¬ ((1 : ℚ) - (-3) < 0) := by norm_num
  have h4 : ((1 : ℝ) - ((-3 : ℚ) : ℝ)) = 2 ^ 2 := by norm_num
  rw [lambert, if_neg hbr, h4, Real.sqrt_sq (by norm_num : (0 : ℝ) ≤ 2)]
  norm_num

/-- C1 (amended): for every evaluated input whose angle term is
non-negative, the clamped Lambertian value lies in [0,1]: the clamp-to-zero
policy covers angle terms above 1 (NaN radicand), while negative angle
terms — not covered by the clamp — make the value exceed 1. -/
theorem lambert_in_unit_interval_of_nonneg_angle (t : ℚ) (h : 0 ≤ t) :
    0 ≤ lambert t ∧ lambert t ≤ 1 := by
  by_cases hc : (1 - t : ℚ) < 0
  · rw [lambert, if_pos hc]
    exact ⟨le_refl 0, zero_le_one⟩
  · have h1 : ((1 : ℝ) - (t : ℚ)) ≤ 1 := by
      have ht : (0 : ℝ) ≤ ((t : ℚ) : ℝ) := by exact_mod_cast h
      linarith
    rw [lambert, if_neg hc]
    refine ⟨Real.sqrt_nonneg _, ?_⟩
    calc Real.sqrt ((1 : ℝ) - (t : ℚ)) ≤ Real.sqrt 1 := Real.sqrt_le_sqrt h1
      _ = 1 := Real.sqrt_one

/-- C1 witness: at the concrete angle term 1/2 the hypothesis holds and the
clamped Lambertian value lies in [0,1]. -/
theorem lambert_in_unit_interval_witness :
    0 ≤ lambert (1/2) ∧ lambert (1/2) ≤ 1 :=
  lambert_in_unit_interval_of_nonneg_angle (1/2) (by norm_num)

/-- C2 (counterexample): on the all-negative pixel (−1,−1,−1) the gamut
pass raises every channel to 0.02 · (−1) = −1/50, so the maximum channel
value changes from −1 to −1/50: the claimed preservation of the per-pixel
maximum fails for pixels whose maximum channel value is negative. -/
theorem gamut_max_not_preserved_negative :
    maxChannel (gamutCorrect ⟨-1, -1, -1⟩) ≠ maxChannel ⟨-1, -1, -1⟩ := by
  norm_num [maxChannel, gamutCorrect, max_def]

/-- C2 (amended): after the gamut pass every channel is at least 0.02 times
the pixel's pre-pass maximum channel value, and the maximum channel value
is unchanged whenever it is non-negative (for a pixel with negative
maximum the pass changes the maximum itself). -/
theorem gamut_floor_and_max_preserved (p : Pixel) :
    0.02 * maxChannel p ≤ (gamutCorrect p).r ∧
    0.02 * maxChannel p ≤ (gamutCorrect p).g ∧
    0.02 * maxChannel p ≤ (gamutCorrect p).b ∧
    (0 ≤ maxChannel p → maxChannel (gamutCorrect p) = maxChannel p) := by
  refine ⟨le_max_right _ _, le_max_right _ _, le_max_right _ _, fun h0 => ?_⟩
  have hf : 0.02 * maxChannel p ≤ maxChannel p := by nlinarith
  have hr : p.r ≤ maxChannel p := le_max_left _ _
  have hg : p.g ≤ maxChannel p := le_trans (le_max_left _ _) (le_max_right _ _)
  have hb : p.b ≤ maxChannel p := le_trans (le_max_right _ _) (le_max_right _ _)
  apply le_antisymm
  · exact max_le (max_le hr hf) (max_le (max_le hg hf) (max_le hb hf))
  · have h1 : p.r ≤ maxChannel (gamutCorrect p) :=
      le_trans (le_max_left _ _) (le_max_left _ _)
    have h2 : p.g ≤ maxChannel (gamutCorrect p) :=
      le_trans (le_max_left _ _) (le_trans (le_max_left _ _) (le_max_right _ _))
    have h3 : p.b ≤ maxChannel (gamutCorrect p) :=
      le_trans (le_max_left _ _) (le_trans (le_max_right _ _) (le_max_right _ _))
    exact max_le h1 (max_le h2 h3)

/-- C2 witness: on the pixel (1,0,0) the non-negativity hypothesis holds
and the gamut pass preserves the maximum channel value. -/
theorem gamut_floor_witness :
    maxChannel (gamutCorrect ⟨1, 0, 0⟩) = maxChannel ⟨1, 0, 0⟩ :=
  (gamut_floor_and_max_preserved ⟨1, 0, 0⟩).2.2.2 (by norm_num [maxChannel])

/-- C3: the sample count equals max(1, ⌊p·m⌋) — the C float-to-int cast
truncates toward zero, which agrees with the floor once clamped below by
1 — each sample weighs p divided by that count, and weight times count
gives back exactly p, so every pixel contributes its full measured
energy. -/
theorem sample_count_and_energy_conservation (L m : ℚ) :
    num_samples L m = max 1 ⌊L * m⌋ ∧
    sample_weight L m * ((num_samples L m : ℤ) : ℚ) = L := by
  have hpos : (1 : ℤ) ≤ num_samples L m := le_max_left _ _
  constructor
  · by_cases h : L * m < 0
    · have hc : ⌈L * m⌉ ≤ 0 := Int.ceil_le.mpr (by exact_mod_cast h.le)
      have hf : ⌊L * m⌋ ≤ 0 := le_trans (Int.floor_le_ceil _) hc
      simp only [num_samples, cTrunc, if_pos h]
      omega
    · simp only [num_samples, cTrunc, if_neg h]
  · have hne : ((num_samples L m : ℤ) : ℚ) ≠ 0 := by
      have h0 : (0 : ℤ) < num_samples L m := lt_of_lt_of_le one_pos hpos
      exact_mod_cast h0.ne'
    rw [sample_weight]
    exact div_mul_cancel₀ L hne

/-- C4 (counterexample): the code truncates the sum of squares with
`%= 2`, not modulo the working degree 3: on the 5-input system whose
third output equation is x₀ + x₀² (fourth equation 0), the sum of squares
contains degree-3 terms that degree-3 truncation keeps (value 3 at the
all-ones point) while the code's degree-2 truncation drops them
(value 1). -/
theorem rearrange_trunc_degree_counterexample :
    TPoly.eval
        ((rearrangeSpectral
            [[], [], [⟨1, [1, 0, 0, 0, 0]⟩, ⟨1, [2, 0, 0, 0, 0]⟩], []]).getD 2 [])
        [1, 1, 1, 1, 1]
      ≠ TPoly.eval
          (TPoly.trunc 3
            (TPoly.add
              (TPoly.mul [⟨1, [1, 0, 0, 0, 0]⟩, ⟨1, [2, 0, 0, 0, 0]⟩]
                         [⟨1, [1, 0, 0, 0, 0]⟩, ⟨1, [2, 0, 0, 0, 0]⟩])
              (TPoly.mul ([] : TPoly) ([] : TPoly))))
          [1, 1, 1, 1, 1] := by
  simp [rearrangeSpectral, TPoly.eval, TPoly.add, TPoly.mul, TPoly.trunc,
        PolyTerm.evalT, PolyTerm.mulT, PolyTerm.degree, List.filter]

/-- C4 (amended): on any 4-output system the angular-spread rearrangement
replaces the third output equation by the sum of squares of the third and
fourth output equations truncated to degree 2 (one less than the working
degree 3), drops the fourth equation, and leaves the first two equations
unchanged, yielding a 3-output transform. -/
theorem rearrange_spectral_result (p0 p1 p2 p3 : TPoly) :
    rearrangeSpectral [p0, p1, p2, p3]
      = [p0, p1, TPoly.trunc 2 (TPoly.add (TPoly.mul p2 p2) (TPoly.mul p3 p3))] ∧
    (rearrangeSpectral [p0, p1, p2, p3]).length = 3 := by
  constructor <;> rfl

/-- C5 (code bug): the boundary systems are built at 500nm and 600nm but
the code anchors `lerp_with` at 550 and 600, so at wavelength 500 the
interpolated transform extrapolates 2·center − right instead of
reproducing the center boundary transform, which it instead reproduces at
550: on constant boundary systems with values 1 (center) and 3 (right)
the interpolation evaluates to −1 at wavelength 500 and to the center
value 1 at wavelength 550. -/
theorem lerp_anchor_mismatch_at_500 :
    TPoly.eval
        ((lerpWith [[⟨1, [0, 0, 0, 0]⟩]] [[⟨3, [0, 0, 0, 0]⟩]] 550 600 4).getD 0 [])
        [0, 0, 0, 0, 500]
      ≠ TPoly.eval [⟨(1 : ℚ), [0, 0, 0, 0]⟩] [0, 0, 0, 0] ∧
    TPoly.eval
        ((lerpWith [[⟨1, [0, 0, 0, 0]⟩]] [[⟨3, [0, 0, 0, 0]⟩]] 550 600 4).getD 0 [])
        [0, 0, 0, 0, 550]
      = TPoly.eval [⟨(1 : ℚ), [0, 0, 0, 0]⟩] [0, 0, 0, 0] := by
  constructor <;>
    · simp [lerpWith, lerpCtrl, TPoly.eval, TPoly.add, TPoly.mul, TPoly.scale,
            TPoly.extend, PolyTerm.evalT, PolyTerm.mulT, List.replicate]
      norm_num

/-- C6 (counterexample): with the row index, the sensor configuration
(hence any notion of sensor physical height) and the magnification all
fixed, the baked world-y value still changes when only the input image
width changes from 2 to 4, so it is not a function of exactly (sensor row
index, sensor physical height, magnification). -/
theorem y_world_depends_on_image_width :
    y_world 0 2 2 36 1 ≠ y_world 0 2 4 36 1 := by
  norm_num [y_world, y_sensor]

/-- C6 (amended): the world-y value baked into the per-row transform is
derived from the sensor row index j, the input image's height and width,
the sensor physical width and the magnification:
y_world · magnification · width = (j − height/2) · sensor_width (with
height/2 the C integer division). -/
theorem y_world_formula (j height width : ℕ) (sw m : ℚ)
    (hw : (width : ℚ) ≠ 0) (hm : m ≠ 0) :
    y_world j height width sw m * m * (width : ℚ)
      = (((j : ℤ) - (height / 2 : ℕ) : ℤ) : ℚ) * sw := by
  rw [y_world, y_sensor]
  field_simp
  ring

/-- C6 witness: at row 0 of a 2×2 input image with sensor width 36 and
magnification 1, the formula applies and evaluates to −18. -/
theorem y_world_formula_witness : y_world 0 2 2 36 1 = -18 := by
  have h := y_world_formula 0 2 2 36 1 (by norm_num) (by norm_num)
  norm_num at h
  linarith

/-- C7: every aperture candidate built from unit-interval random draws
lies in the enclosing square [−r, r]², and every point the rejection loop
accepts lies in the closed disk of radius r, so every sample evaluated
through the optical transform has its aperture coordinates inside that
disk. -/
theorem aperture_sampling_invariant
    (u v r : ℚ) (hu0 : 0 ≤ u) (hu1 : u ≤ 1) (hv0 : 0 ≤ v) (hv1 : v ≤ 1)
    (hr : 0 ≤ r) (cand : ℕ → ℚ × ℚ) (fuel : ℕ) (p : ℚ × ℚ)
    (hacc : rejectionLoop cand r fuel = some p) :
    inSquare (apCandidate u v r) r ∧ inDisk p r := by
  constructor
  · refine ⟨?_, ?_, ?_, ?_⟩ <;> simp only [apCandidate] <;>
      nlinarith [mul_nonneg hu0 hr, mul_nonneg hv0 hr,
                 mul_nonneg (sub_nonneg.mpr hu1) hr,
                 mul_nonneg (sub_nonneg.mpr hv1) hr]
  · exact rejectionLoopAux_inDisk cand r fuel 0 p hacc

/-- C7 witness: the central draw u = v = 1/2 with pupil radius 1 gives the
candidate (0,0) inside the square, and a loop that accepts (0,0) returns a
point inside the disk. -/
theorem aperture_sampling_witness :
    inSquare (apCandidate (1/2) (1/2) 1) 1 ∧ inDisk (0, 0) 1 :=
  aperture_sampling_invariant (1/2) (1/2) 1 (by norm_num) (by norm_num)
    (by norm_num) (by norm_num) (by norm_num)
    (fun _ => (0, 0)) 1 (0, 0)
    (by rw [rejectionLoop, show (1 : ℕ) = 0 + 1 from rfl, rejectionLoopAux,
            if_pos (by norm_num [inDisk])])

/-- C8 (counterexample): for the random sequence that always returns the
maximal draw (u = v = 1, i.e. rand = RAND_MAX), every candidate is the
square's corner (r, r), which lies outside the disk, so the rejection
loop never accepts with any amount of fuel: the rendering computation
does not terminate for every random-number sequence. -/
theorem rejection_loop_nontermination :
    ¬ loopTerminates (fun _ => apCandidate 1 1 (39/2)) (39/2) := by
  rintro ⟨fuel, p, hp⟩
  have hnone : ∀ f i,
      rejectionLoopAux (fun _ => apCandidate 1 1 (39/2)) (39/2) i f = none := by
    intro f
    induction f with
    | zero => intro i; rfl
    | succ n ih =>
      intro i
      have hd : ¬ inDisk (apCandidate 1 1 (39/2)) (39/2) := by
        norm_num [inDisk, apCandidate]
      simp only [rejectionLoopAux, if_neg hd]
      exact ih (i + 1)
  rw [rejectionLoop, hnone] at hp
  exact Option.noConfusion hp

/-- C8 (amended): the spectral-bin, row, column and sample loops are
bounded by configuration and input radiance, and the aperture rejection
loop terminates for every random sequence that eventually produces a
candidate inside the disk; it does not terminate on sequences whose
candidates all stay outside the disk. -/
theorem rejection_loop_terminates_of_hit (cand : ℕ → ℚ × ℚ) (r : ℚ)
    (h : ∃ n, inDisk (cand n) r) : loopTerminates cand r := by
  obtain ⟨n, hn⟩ := h
  obtain ⟨p, hp⟩ := rejectionLoopAux_isSome cand r (n + 1) 0
    ⟨n, Nat.lt_succ_self n, by simpa using hn⟩
  exact ⟨n + 1, p, hp⟩

/-- C8 witness: the random sequence of central draws immediately produces
a candidate inside the disk, so the loop terminates on it. -/
theorem rejection_loop_terminates_witness :
    loopTerminates (fun _ => apCandidate (1/2) (1/2) (39/2)) (39/2) :=
  rejection_loop_terminates_of_hit (fun _ => apCandidate (1/2) (1/2) (39/2))
    (39/2) ⟨0, by norm_num [inDisk, apCandidate]⟩

/-- C9: the output buffer starts at zero in every channel of every pixel
and every rendering write is an accumulating add, so at the end of the
Monte Carlo pass each channel of each output pixel equals exactly the sum
of the bilinear splat contributions deposited into it. -/
theorem splat_accumulation_sum (splats : List Splat) (q : ℤ × ℤ × Fin 3) :
    renderAccum splats q = (splats.map (fun s => s.value * splatWeight s q)).sum := by
  rw [renderAccum, foldl_deposit_apply]
  simp [zeroImage]

/-- C10: a pixel with non-positive measured spectral power gets exactly
one sample, whose weight is that power itself, so non-positive power is
still splatted rather than skipped or clamped. -/
theorem nonpositive_power_single_sample (L m : ℚ) (hL : L ≤ 0) (hm : 0 ≤ m) :
    num_samples L m = 1 ∧ sample_weight L m = L := by
  have hLm : L * m ≤ 0 := mul_nonpos_iff.mpr (Or.inr ⟨hL, hm⟩)
  have h1 : num_samples L m = 1 := by
    by_cases h : L * m < 0
    · have hc : ⌈L * m⌉ ≤ 0 := Int.ceil_le.mpr (by exact_mod_cast hLm)
      simp only [num_samples, cTrunc, if_pos h]
      omega
    · have h0 : L * m = 0 := le_antisymm hLm (not_lt.mp h)
      simp [num_samples, cTrunc, h0]
  refine ⟨h1, ?_⟩
  simp [sample_weight, h1]

/-- C10 witness: at measured power −1 and multiplier 1000 the hypotheses
hold, the sample count is 1 and the single sample's weight is −1. -/
theorem nonpositive_power_witness :
    num_samples (-1) 1000 = 1 ∧ sample_weight (-1) 1000 = -1 :=
  nonpositive_power_single_sample (-1) 1000 (by norm_num) (by norm_num)
